import Mathlib

/-!
Verification of the monomial-ordering and matrix-preparation layer of a
Macaulay/TVB multivariate root-finding solver
(`CHEBYSHEV/TVB_Method/cheb_utils.py`).

Each Python function used by the claims is shallowly embedded as an
executable Lean definition.  Machine lists are `List Nat` / `List Int` /
`List ℚ`; n-dimensional numpy arrays are modelled as a shape together with
a value function on multi-indices; Python calls that raise are embedded as
`Option`-returning functions (`none` marks the raising execution).
-/

/-! ## Terms and the grevlex order (`Term.__lt__`) -/

/-- A `Term` wraps a tuple of exponents (`Term.__init__` stores
`self.val = tuple(val)`). -/
structure Term where
  val : List Nat

/-- The loop body of `Term.__lt__`:
`for i,j in zip(reversed(self.val), reversed(other.val)):
   if i < j: return False
   if i > j: return True
 return False`,
here applied to the already-reversed lists (`zip` stops at the shorter
list, which the two catch-all cases reproduce). -/
def grevlexScan : List Nat → List Nat → Bool
  | i :: a, j :: b =>
      if i < j then false
      else if j < i then true
      else grevlexScan a b
  | _, _ => false

/-- `Term.__lt__(self, other)` with the default `order = 'grevlex'`:
compare total degrees first, and on a tie run the reversed scan. -/
def Term.lt (s o : Term) : Bool :=
  if s.val.sum < o.val.sum then true
  else if o.val.sum < s.val.sum then false
  else grevlexScan s.val.reverse o.val.reverse

theorem grevlexScan_irrefl (x : List Nat) : grevlexScan x x = false := by
  induction x with
  | nil => rfl
  | cons i a ih => simp [grevlexScan, ih]

theorem grevlexScan_asymm :
    ∀ x y : List Nat, grevlexScan x y = true → grevlexScan y x = false := by
  intro x
  induction x with
  | nil => intro y h; cases y <;> simp [grevlexScan] at h
  | cons i a ih =>
      intro y h
      cases y with
      | nil => simp [grevlexScan] at h
      | cons j b =>
          by_cases hij : i < j
          · simp [grevlexScan, hij] at h
          · by_cases hji : j < i
            · simp [grevlexScan, hji, Nat.not_lt.mpr (Nat.le_of_lt hji)]
            · have hij' : i = j := Nat.le_antisymm (Nat.not_lt.mp hji) (Nat.not_lt.mp hij)
              subst hij'
              simp [grevlexScan] at h ⊢
              exact ih b h

theorem grevlexScan_trans :
    ∀ x y z : List Nat, grevlexScan x y = true → grevlexScan y z = true →
      grevlexScan x z = true := by
  intro x
  induction x with
  | nil => intro y z h; cases y <;> simp [grevlexScan] at h
  | cons i a ih =>
      intro y z hxy hyz
      cases y with
      | nil => simp [grevlexScan] at hxy
      | cons j b =>
          cases z with
          | nil => cases b <;> simp [grevlexScan] at hyz
          | cons k c =>
              by_cases hij : i < j
              · simp [grevlexScan, hij] at hxy
              · by_cases hjk : j < k
                · simp [grevlexScan, hjk] at hyz
                · by_cases hji : j < i
                  · -- i > j ≥ k, so i > k
                    have hki : k < i := Nat.lt_of_le_of_lt (Nat.not_lt.mp hjk) hji
                    simp [grevlexScan, Nat.not_lt.mpr (Nat.le_of_lt hki), hki]
                  · have hij' : i = j := Nat.le_antisymm (Nat.not_lt.mp hji) (Nat.not_lt.mp hij)
                    subst hij'
                    by_cases hkj : k < i
                    · simp [grevlexScan, Nat.not_lt.mpr (Nat.le_of_lt hkj), hkj]
                    · have hjk' : i = k := Nat.le_antisymm (Nat.not_lt.mp hkj) (Nat.not_lt.mp hjk)
                      subst hjk'
                      simp [grevlexScan] at hxy hyz ⊢
                      exact ih b c hxy hyz

theorem grevlexScan_total :
    ∀ x y : List Nat, x.length = y.length → x ≠ y →
      grevlexScan x y = true ∨ grevlexScan y x = true := by
  intro x
  induction x with
  | nil =>
      intro y hlen hne
      cases y with
      | nil => exact absurd rfl hne
      | cons j b => simp at hlen
  | cons i a ih =>
      intro y hlen hne
      cases y with
      | nil => simp at hlen
      | cons j b =>
          by_cases hij : i < j
          · right; simp [grevlexScan, Nat.not_lt.mpr (Nat.le_of_lt hij), hij]
          · by_cases hji : j < i
            · left; simp [grevlexScan, Nat.not_lt.mpr (Nat.le_of_lt hji), hji]
            · have hij' : i = j := Nat.le_antisymm (Nat.not_lt.mp hji) (Nat.not_lt.mp hij)
              subst hij'
              have hab : a ≠ b := by
                intro h; exact hne (by rw [h])
              have := ih b (by simpa using hlen) hab
              simpa [grevlexScan] using this

/-- On equal-length lists, the scan returns `true` exactly when the first
position (from the front) where the lists differ has the left entry
strictly larger. -/
theorem grevlexScan_iff_firstdiff :
    ∀ x y : List Nat, x.length = y.length →
      (grevlexScan x y = true ↔
        ∃ k, k < x.length ∧ y.getD k 0 < x.getD k 0 ∧
          ∀ j, j < k → x.getD j 0 = y.getD j 0) := by
  intro x
  induction x with
  | nil =>
      intro y hlen
      cases y with
      | nil => simp [grevlexScan]
      | cons j b => simp at hlen
  | cons i a ih =>
      intro y hlen
      cases y with
      | nil => simp at hlen
      | cons j b =>
          have hlen' : a.length = b.length := by simpa using hlen
          by_cases hij : i < j
          · simp only [grevlexScan, if_pos hij]
            constructor
            · intro h; exact absurd h (by simp)
            · rintro ⟨k, hk, hlt, hfst⟩
              cases k with
              | zero => simp [List.getD] at hlt; omega
              | succ k' =>
                  have h0 := hfst 0 (Nat.succ_pos k')
                  simp [List.getD] at h0; omega
          · by_cases hji : j < i
            · simp only [grevlexScan, if_neg hij, if_pos hji]
              constructor
              · intro _
                exact ⟨0, Nat.succ_pos _, by simpa [List.getD] using hji, by intro j hj; omega⟩
              · intro _; trivial
            · have hij' : i = j := Nat.le_antisymm (Nat.not_lt.mp hji) (Nat.not_lt.mp hij)
              subst hij'
              simp only [grevlexScan, if_neg hij, if_neg hji]
              rw [ih b hlen']
              constructor
              · rintro ⟨k, hk, hlt, hfst⟩
                refine ⟨k + 1, by simpa using Nat.succ_lt_succ hk, by simpa [List.getD] using hlt, ?_⟩
                intro j hj
                cases j with
                | zero => simp [List.getD]
                | succ j' =>
                    have := hfst j' (by omega)
                    simpa [List.getD] using this
              · rintro ⟨k, hk, hlt, hfst⟩
                cases k with
                | zero => simp [List.getD] at hlt
                | succ k' =>
                    refine ⟨k', by simpa using Nat.lt_of_succ_lt_succ hk,
                      by simpa [List.getD] using hlt, ?_⟩
                    intro j hj
                    have := hfst (j + 1) (by omega)
                    simpa [List.getD] using this

theorem getD_reverse (l : List Nat) (k : Nat) (hk : k < l.length) :
    l.reverse.getD k 0 = l.getD (l.length - 1 - k) 0 := by
  have hk' : k < l.reverse.length := by simpa using hk
  have h2 : l.length - 1 - k < l.length := by omega
  rw [List.getD_eq_getElem l.reverse 0 hk', List.getD_eq_getElem l 0 h2]
  exact List.getElem_reverse hk'

/-- Transport of the first-difference characterisation through the
`reversed(...)` calls: on equal-length lists the reversed scan succeeds
exactly when, at the last position where the lists differ, the left list is
strictly larger. -/
theorem grevlexScan_reverse_iff (a b : List Nat) (hlen : a.length = b.length) :
    (grevlexScan a.reverse b.reverse = true ↔
      ∃ k, k < a.length ∧ b.getD k 0 < a.getD k 0 ∧
        ∀ j, k < j → j < a.length → a.getD j 0 = b.getD j 0) := by
  rw [grevlexScan_iff_firstdiff a.reverse b.reverse (by simpa using hlen)]
  simp only [List.length_reverse]
  constructor
  · rintro ⟨k, hk, hlt, hfst⟩
    refine ⟨a.length - 1 - k, by omega, ?_, ?_⟩
    · rw [getD_reverse a k hk] at hlt
      rw [getD_reverse b k (by omega)] at hlt
      rw [hlen] at hlt ⊢
      exact hlt
    · intro j hjk hj
      have hj' : a.length - 1 - j < k := by omega
      have := hfst (a.length - 1 - j) hj'
      rw [getD_reverse a (a.length - 1 - j) (by omega)] at this
      rw [getD_reverse b (a.length - 1 - j) (by omega)] at this
      have hidx : a.length - 1 - (a.length - 1 - j) = j := by omega
      rw [← hlen] at this
      rw [hidx] at this
      exact this
  · rintro ⟨k, hk, hlt, hlast⟩
    refine ⟨a.length - 1 - k, by omega, ?_, ?_⟩
    · rw [getD_reverse a (a.length - 1 - k) (by omega),
        getD_reverse b (a.length - 1 - k) (by omega)]
      have hidx : a.length - 1 - (a.length - 1 - k) = k := by omega
      rw [hidx]
      rw [← hlen]
      rw [hidx]
      exact hlt
    · intro j hj
      rw [getD_reverse a j (by omega), getD_reverse b j (by omega)]
      have : a.length - 1 - j > k := by omega
      have := hlast (a.length - 1 - j) this (by omega)
      rw [hlen] at this ⊢
      exact this

/-- C1: `Term.__lt__` computes grevlex — on equal-length exponent tuples it
returns `true` iff the degree sum is smaller, or the sums tie and the last
differing position holds a strictly larger entry on the left; the relation
is irreflexive, asymmetric, transitive, and total on distinct equal-length
tuples; and `(1,1) < (2,0)` and `(0,0,1) < (0,1,0) < (1,0,0)`. -/
theorem C1_grevlex_strict_total_order :
    (∀ a b : List Nat, a.length = b.length →
      (Term.lt ⟨a⟩ ⟨b⟩ = true ↔
        (a.sum < b.sum ∨ (a.sum = b.sum ∧
          ∃ k, k < a.length ∧ b.getD k 0 < a.getD k 0 ∧
            ∀ j, k < j → j < a.length → a.getD j 0 = b.getD j 0)))) ∧
    (∀ a : List Nat, Term.lt ⟨a⟩ ⟨a⟩ = false) ∧
    (∀ a b : List Nat, Term.lt ⟨a⟩ ⟨b⟩ = true → Term.lt ⟨b⟩ ⟨a⟩ = false) ∧
    (∀ a b c : List Nat, Term.lt ⟨a⟩ ⟨b⟩ = true → Term.lt ⟨b⟩ ⟨c⟩ = true →
      Term.lt ⟨a⟩ ⟨c⟩ = true) ∧
    (∀ a b : List Nat, a.length = b.length → a ≠ b →
      Term.lt ⟨a⟩ ⟨b⟩ = true ∨ Term.lt ⟨b⟩ ⟨a⟩ = true) ∧
    Term.lt ⟨[1, 1]⟩ ⟨[2, 0]⟩ = true ∧
    Term.lt ⟨[0, 0, 1]⟩ ⟨[0, 1, 0]⟩ = true ∧
    Term.lt ⟨[0, 1, 0]⟩ ⟨[1, 0, 0]⟩ = true := by
  refine ⟨?_, ?_, ?_, ?_, ?_, by decide, by decide, by decide⟩
  · intro a b hlen
    unfold Term.lt
    by_cases h1 : a.sum < b.sum
    · simp [h1]
    · by_cases h2 : b.sum < a.sum
      · simp only [if_neg h1, if_pos h2]
        constructor
        · intro h; exact absurd h (by simp)
        · intro h
          rcases h with h | ⟨heq, _⟩
          · omega
          · omega
      · have heq : a.sum = b.sum := by omega
        simp only [if_neg h1, if_neg h2]
        rw [grevlexScan_reverse_iff a b hlen]
        constructor
        · intro h; exact Or.inr ⟨heq, h⟩
        · rintro (h | ⟨_, h⟩)
          · omega
          · exact h
  · intro a
    unfold Term.lt
    simp [grevlexScan_irrefl]
  · intro a b h
    unfold Term.lt at h ⊢
    by_cases h1 : a.sum < b.sum
    · simp [Nat.not_lt.mpr (Nat.le_of_lt h1), h1]
    · by_cases h2 : b.sum < a.sum
      · simp [h1, h2] at h
      · simp only [if_neg h1, if_neg h2] at h ⊢
        exact grevlexScan_asymm _ _ h
  · intro a b c hab hbc
    unfold Term.lt at hab hbc ⊢
    by_cases hab1 : a.sum < b.sum
    · by_cases hbc1 : b.sum < c.sum
      · simp [Nat.lt_trans hab1 hbc1]
      · by_cases hbc2 : c.sum < b.sum
        · simp [hbc1, hbc2] at hbc
        · have : b.sum = c.sum := by omega
          simp [this ▸ hab1]
    · by_cases hab2 : b.sum < a.sum
      · simp [hab1, hab2] at hab
      · have hab' : a.sum = b.sum := by omega
        by_cases hbc1 : b.sum < c.sum
        · simp [hab' ▸ hbc1]
        · by_cases hbc2 : c.sum < b.sum
          · simp [hbc1, hbc2] at hbc
          · have hbc' : b.sum = c.sum := by omega
            have hac1 : ¬ a.sum < c.sum := by omega
            have hac2 : ¬ c.sum < a.sum := by omega
            simp only [if_neg hab1, if_neg hab2] at hab
            simp only [if_neg hbc1, if_neg hbc2] at hbc
            simp only [if_neg hac1, if_neg hac2]
            exact grevlexScan_trans _ _ _ hab hbc
  · intro a b hlen hne
    unfold Term.lt
    by_cases h1 : a.sum < b.sum
    · left; simp [h1]
    · by_cases h2 : b.sum < a.sum
      · right; simp [h2, Nat.not_lt.mpr (Nat.le_of_lt h2)]
      · have hne' : a.reverse ≠ b.reverse := fun h => hne (List.reverse_injective h)
        have := grevlexScan_total a.reverse b.reverse (by simpa using hlen) hne'
        rcases this with h | h
        · left; simp only [if_neg h1, if_neg h2]; exact h
        · right; simp only [if_neg h1, if_neg h2]; exact h

/-- Witness for C1: instantiating the order properties at concrete tuples. -/
theorem C1_grevlex_strict_total_order_witness :
    Term.lt ⟨[0, 1]⟩ ⟨[1, 0]⟩ = true ∨ Term.lt ⟨[1, 0]⟩ ⟨[0, 1]⟩ = true :=
  C1_grevlex_strict_total_order.2.2.2.2.1 [0, 1] [1, 0] rfl (by decide)

/-! ## Monomial enumeration (`mon_combos`, `mon_combos_highest`)

Both Python functions recurse over the positions of a caller-supplied list
`mon`, threading a shared scratch list `temp` through the loop, and they
mutate list cells in place (`mon[spot] = i`, `temp[spot] = i`).  The
embedding makes that state explicit: each call returns the produced
monomial list together with the final contents of the list object that was
passed in (the callee-visible mutation).  A fuel argument bounds the
recursion depth (which is at most `len(mon) - spot`); the fuel-exhausted
and index-out-of-range branches return `([], mon)` and are unreachable for
the calls Python executes without an `IndexError`. -/

/-- Shared embedding of `mon_combos` (`highest = false`) and
`mon_combos_highest` (`highest = true`); the two Python functions differ
only in the `len(mon) == spot+1` base case.  First component: `answers`;
second component: the final contents of the caller's list.  In the base
case the loop `for i in range(num_left+1): mon[spot] = i; answers.append(mon.copy())`
leaves `mon[spot] = num_left` behind; in the recursive branch `temp = mon.copy()`
is threaded through the recursive calls (which may mutate it) while `mon`
itself is left untouched. -/
def monCombosF (highest : Bool) : Nat → List Nat → Nat → Nat → List (List Nat) × List Nat
  | 0, mon, _, _ => ([], mon)
  | fuel + 1, mon, numLeft, spot =>
      if mon.length = spot + 1 then
        (if highest then [mon.set spot numLeft]
         else (List.range (numLeft + 1)).map (fun i => mon.set spot i),
         mon.set spot numLeft)
      else if numLeft = 0 then
        ([mon], mon)
      else if spot + 1 < mon.length then
        (((List.range (numLeft + 1)).foldl
            (fun acc i =>
              let r := monCombosF highest fuel (acc.2.set spot i) (numLeft - i) (spot + 1)
              (acc.1 ++ r.1, r.2))
            ([], mon)).1,
         mon)
      else ([], mon)

/-- `mon_combos(mon, num_left, spot)`: list of monomials produced, paired
with the final contents of the caller's `mon` list. -/
def mon_combos (mon : List Nat) (num_left spot : Nat) : List (List Nat) × List Nat :=
  monCombosF false (mon.length + 1) mon num_left spot

/-- `mon_combos_highest(mon, num_left, spot)`: list of monomials produced,
paired with the final contents of the caller's `mon` list. -/
def mon_combos_highest (mon : List Nat) (num_left spot : Nat) : List (List Nat) × List Nat :=
  monCombosF true (mon.length + 1) mon num_left spot

/-- Specification-side enumeration: all length-`k` tuples generated in the
order of the recursion, with total degree `≤ n` (`highest = false`) or
exactly the forced residual at each leaf (`highest = true`). -/
def subMonsG (highest : Bool) : Nat → Nat → List (List Nat)
  | 0, _ => [[]]
  | 1, n => if highest then [[n]] else (List.range (n + 1)).map (fun i => [i])
  | k + 2, n =>
      (List.range (n + 1)).flatMap
        (fun i => (subMonsG highest (k + 1) (n - i)).map (fun s => i :: s))

theorem getD_set_ne (l : List Nat) (m j a : Nat) (h : m ≠ j) :
    (l.set m a).getD j 0 = l.getD j 0 := by
  by_cases hj : j < l.length
  · rw [List.getD_eq_getElem _ _ (by simpa using hj), List.getD_eq_getElem _ _ hj]
    exact List.getElem_set_ne h _
  · rw [List.getD_eq_default _ _ (by simpa using Nat.le_of_not_lt hj),
      List.getD_eq_default _ _ (Nat.le_of_not_lt hj)]

theorem take_set_of_le (l : List Nat) (m k a : Nat) (h : k ≤ m) :
    (l.set m a).take k = l.take k := by
  apply List.ext_getElem (by simp)
  intro n h1 h2
  rw [List.getElem_take, List.getElem_take]
  exact List.getElem_set_ne (by have := h1; simp [List.length_take] at this; omega) _

theorem set_last (l : List Nat) (spot i : Nat) (h : l.length = spot + 1) :
    l.set spot i = l.take spot ++ [i] := by
  rw [List.set_eq_take_append_cons_drop, if_pos (by omega)]
  rw [List.drop_eq_nil_of_le (by omega)]

theorem take_succ_set (l : List Nat) (spot i : Nat) (h : spot < l.length) :
    (l.set spot i).take (spot + 1) = l.take spot ++ [i] := by
  rw [List.set_eq_take_append_cons_drop, if_pos h]
  rw [List.take_append_eq_append_take]
  have hlen : (l.take spot).length = spot := by simp [List.length_take]; omega
  rw [List.take_of_length_le (by omega), hlen]
  have : spot + 1 - spot = 1 := by omega
  rw [this]
  simp

theorem eq_take_append_replicate (l : List Nat) (spot : Nat) (hspot : spot < l.length)
    (hzero : ∀ j, spot ≤ j → l.getD j 0 = 0) :
    l = l.take spot ++ List.replicate (l.length - spot) 0 := by
  conv_lhs => rw [← List.take_append_drop spot l]
  congr 1
  apply List.ext_getElem (by simp [List.length_drop])
  intro n h1 h2
  rw [List.getElem_drop, List.getElem_replicate]
  have hb : spot + n < l.length := by simp [List.length_drop] at h1; omega
  have := hzero (spot + n) (by omega)
  rw [List.getD_eq_getElem _ _ hb] at this
  exact this

/-- The caller-visible mutation of each call: only the `len(mon) == spot+1`
base case writes into the caller's list (it leaves `mon[spot] = num_left`);
every other branch hands the list back unchanged. -/
theorem monCombosF_snd (highest : Bool) (fuel : Nat) (mon : List Nat) (n spot : Nat)
    (hf : 1 ≤ fuel) :
    (monCombosF highest fuel mon n spot).2 =
      if mon.length = spot + 1 then mon.set spot n else mon := by
  cases fuel with
  | zero => omega
  | succ fuel =>
      by_cases h1 : mon.length = spot + 1
      · simp [monCombosF, h1]
      · by_cases h2 : n = 0
        · simp [monCombosF, h1, h2]
        · by_cases h3 : spot + 1 < mon.length
          · simp [monCombosF, h1, h2, h3]
          · simp [monCombosF, h1, h2, h3]

theorem getD_replicate_zero (k j : Nat) : (List.replicate k (0 : Nat)).getD j 0 = 0 := by
  by_cases h : j < k
  · rw [List.getD_eq_getElem _ _ (by simpa using h)]
    exact List.getElem_replicate 0 _
  · exact List.getD_eq_default _ _ (by simpa using Nat.le_of_not_lt h)

theorem subMonsG_zero (highest : Bool) :
    ∀ k : Nat, subMonsG highest (k + 1) 0 = [List.replicate (k + 1) 0] := by
  intro k
  induction k with
  | zero => cases highest <;> rfl
  | succ k ih =>
      show (List.range (0 + 1)).flatMap _ = _
      rw [show List.range (0 + 1) = [0] from rfl]
      simp only [List.flatMap_cons, List.flatMap_nil, List.append_nil, Nat.sub_zero]
      rw [ih]
      simp [List.replicate_succ]

/-- Characterisation of the loop
`temp = mon.copy(); for i in range(num_left+1): temp[spot] = i;
 answers += mon_combos(temp, num_left-i, spot+1)` for both enumeration
functions, threading the shared `temp` object through the recursive calls
(a call that bottoms out at the last position mutates `temp` there). -/
theorem monCombosF_loop_fst (highest : Bool) (fuel spot n : Nat)
    (IH : ∀ (mon : List Nat) (numLeft spot' : Nat), spot' < mon.length →
      mon.length ≤ fuel + spot' →
      (∀ j, spot' < j → mon.getD j 0 = 0) →
      (spot' + 1 < mon.length → mon.getD spot' 0 = 0) →
      (monCombosF highest fuel mon numLeft spot').1
        = (subMonsG highest (mon.length - spot') numLeft).map
            (fun s => mon.take spot' ++ s)) :
    ∀ (is : List Nat) (ans : List (List Nat)) (temp : List Nat),
      spot + 1 < temp.length → temp.length ≤ fuel + spot + 1 →
      (∀ j, spot < j → j + 1 < temp.length → temp.getD j 0 = 0) →
      (spot + 2 < temp.length → temp.getD (temp.length - 1) 0 = 0) →
      (is.foldl
          (fun acc i =>
            let r := monCombosF highest fuel (acc.2.set spot i) (n - i) (spot + 1)
            (acc.1 ++ r.1, r.2))
          (ans, temp)).1
        = ans ++ is.flatMap (fun i =>
            (subMonsG highest (temp.length - (spot + 1)) (n - i)).map
              (fun s => temp.take spot ++ i :: s)) := by
  intro is
  induction is with
  | nil => intro ans temp _ _ _ _; simp
  | cons i is ih =>
      intro ans temp hlt hfuel H1 H2
      have hfuel1 : 1 ≤ fuel := by omega
      have hspotlen : spot < temp.length := by omega
      simp only [List.foldl_cons]
      have hlent : (temp.set spot i).length = temp.length := List.length_set temp spot i
      -- the recursive call on the freshly written temp
      have hchild := IH (temp.set spot i) (n - i) (spot + 1)
        (by omega) (by omega)
        (by
          intro j hj
          rw [getD_set_ne temp spot j i (by omega)]
          by_cases hjlen : j < temp.length
          · by_cases hj1 : j + 1 < temp.length
            · exact H1 j (by omega) hj1
            · have : j = temp.length - 1 := by omega
              subst this
              exact H2 (by omega)
          · exact List.getD_eq_default _ _ (by omega))
        (by
          intro hb
          rw [getD_set_ne temp spot (spot + 1) i (by omega)]
          exact H1 (spot + 1) (by omega) (by omega))
      have hsnd := monCombosF_snd highest fuel (temp.set spot i) (n - i) (spot + 1) hfuel1
      rw [hlent] at hsnd
      -- facts about the state of temp after the recursive call
      have hlenr : (monCombosF highest fuel (temp.set spot i) (n - i) (spot + 1)).2.length
          = temp.length := by
        rw [hsnd]
        by_cases hb : temp.length = spot + 1 + 1 <;> simp [hb, hlent]
      have htaker : (monCombosF highest fuel (temp.set spot i) (n - i) (spot + 1)).2.take spot
          = temp.take spot := by
        rw [hsnd]
        by_cases hb : temp.length = spot + 1 + 1
        · rw [if_pos hb, take_set_of_le _ _ _ _ (by omega), take_set_of_le _ _ _ _ (by omega)]
        · rw [if_neg hb, take_set_of_le _ _ _ _ (by omega)]
      have hih := ih (ans ++ (monCombosF highest fuel (temp.set spot i) (n - i) (spot + 1)).1)
        (monCombosF highest fuel (temp.set spot i) (n - i) (spot + 1)).2
        (by omega) (by omega)
        (by
          intro j hj hj1
          rw [hlenr] at hj1
          rw [hsnd]
          by_cases hb : temp.length = spot + 1 + 1
          · omega
          · rw [if_neg hb, getD_set_ne temp spot j i (by omega)]
            exact H1 j hj hj1)
        (by
          intro hb2
          rw [hlenr] at hb2 ⊢
          rw [hsnd]
          by_cases hb : temp.length = spot + 1 + 1
          · omega
          · rw [if_neg hb, getD_set_ne temp spot (temp.length - 1) i (by omega)]
            exact H2 hb2)
      rw [hih, hlenr, htaker]
      -- fold the first step's answers into the flatMap over i :: is
      rw [hchild]
      have htake1 : (temp.set spot i).take (spot + 1) = temp.take spot ++ [i] :=
        take_succ_set temp spot i hspotlen
      rw [hlent, htake1]
      simp only [List.flatMap_cons, List.append_assoc, List.singleton_append]

/-- Unfolding equation of `monCombosF` at positive fuel. -/
theorem monCombosF_succ (highest : Bool) (fuel : Nat) (mon : List Nat) (numLeft spot : Nat) :
    monCombosF highest (fuel + 1) mon numLeft spot
      = if mon.length = spot + 1 then
          (if highest then [mon.set spot numLeft]
           else (List.range (numLeft + 1)).map (fun i => mon.set spot i),
           mon.set spot numLeft)
        else if numLeft = 0 then ([mon], mon)
        else if spot + 1 < mon.length then
          (((List.range (numLeft + 1)).foldl
              (fun acc i =>
                let r := monCombosF highest fuel (acc.2.set spot i) (numLeft - i) (spot + 1)
                (acc.1 ++ r.1, r.2))
              ([], mon)).1,
           mon)
        else ([], mon) := rfl

/-- The monomial list produced by a call on a list whose entries after the
current position are zero: it is `subMonsG` on the remaining positions,
prefixed with the untouched positions before `spot`. -/
theorem monCombosF_fst (highest : Bool) :
    ∀ (fuel : Nat) (mon : List Nat) (numLeft spot : Nat), spot < mon.length →
      mon.length ≤ fuel + spot →
      (∀ j, spot < j → mon.getD j 0 = 0) →
      (spot + 1 < mon.length → mon.getD spot 0 = 0) →
      (monCombosF highest fuel mon numLeft spot).1
        = (subMonsG highest (mon.length - spot) numLeft).map
            (fun s => mon.take spot ++ s) := by
  intro fuel
  induction fuel with
  | zero => intro mon n spot h1 h2 _ _; omega
  | succ fuel ihf =>
      intro mon n spot hspot hfuel hA hB
      by_cases hbase : mon.length = spot + 1
      · have h1 : mon.length - spot = 1 := by omega
        rw [monCombosF_succ, if_pos hbase, h1]
        cases highest with
        | true =>
            show [mon.set spot n] = (subMonsG true 1 n).map (fun s => mon.take spot ++ s)
            rw [set_last mon spot n hbase]
            rfl
        | false =>
            show (List.range (n + 1)).map (fun i => mon.set spot i)
              = ((List.range (n + 1)).map (fun i => [i])).map (fun s => mon.take spot ++ s)
            rw [List.map_map]
            apply List.map_congr_left
            intro i _
            rw [Function.comp_apply, set_last mon spot i hbase]
      · by_cases hn : n = 0
        · subst hn
          rw [monCombosF_succ, if_neg hbase, if_pos rfl]
          have hk : mon.length - spot = (mon.length - spot - 1) + 1 := by omega
          rw [hk, subMonsG_zero]
          show [mon] = [mon.take spot ++ List.replicate (mon.length - spot - 1 + 1) 0]
          rw [← hk]
          have := eq_take_append_replicate mon spot hspot (by
            intro j hj
            rcases Nat.eq_or_lt_of_le hj with h | h
            · exact h ▸ hB (by omega)
            · exact hA j h)
          rw [← this]
        · have hrec : spot + 1 < mon.length := by omega
          rw [monCombosF_succ, if_neg hbase, if_neg hn, if_pos hrec]
          have hloop := monCombosF_loop_fst highest fuel spot n ihf (List.range (n + 1)) [] mon
            hrec (by omega)
            (fun j hj _ => hA j hj)
            (fun h2 => hA (mon.length - 1) (by omega))
          show ((List.range (n + 1)).foldl
            (fun acc i =>
              let r := monCombosF highest fuel (acc.2.set spot i) (n - i) (spot + 1)
              (acc.1 ++ r.1, r.2)) ([], mon)).1 = _
          rw [hloop, List.nil_append]
          have hk : mon.length - spot = (mon.length - spot - 2) + 2 := by omega
          have hk1 : mon.length - (spot + 1) = (mon.length - spot - 2) + 1 := by omega
          rw [hk1, hk]
          show _ = ((List.range (n + 1)).flatMap
            (fun i => (subMonsG highest (mon.length - spot - 2 + 1) (n - i)).map
              (fun s => i :: s))).map (fun s => mon.take spot ++ s)
          rw [List.map_flatMap]
          congr 1
          funext i
          rw [List.map_map]
          apply List.map_congr_left
          intro s _
          rfl

theorem mem_subMonsG_false (k : Nat) :
    ∀ (n : Nat) (s : List Nat),
      s ∈ subMonsG false (k + 1) n ↔ (s.length = k + 1 ∧ s.sum ≤ n) := by
  induction k with
  | zero =>
      intro n s
      show s ∈ (List.range (n + 1)).map (fun i => [i]) ↔ _
      simp only [List.mem_map, List.mem_range]
      constructor
      · rintro ⟨i, hi, rfl⟩
        simp; omega
      · rintro ⟨hlen, hsum⟩
        match s with
        | [a] => exact ⟨a, by simp at hsum ⊢; omega, rfl⟩
  | succ k ih =>
      intro n s
      show s ∈ (List.range (n + 1)).flatMap _ ↔ _
      simp only [List.mem_flatMap, List.mem_map, List.mem_range]
      constructor
      · rintro ⟨i, hi, u, hu, rfl⟩
        have := (ih (n - i) u).mp hu
        simp [this.1]
        omega
      · rintro ⟨hlen, hsum⟩
        match s with
        | a :: u =>
            have hlen' : u.length = k + 1 := by simpa using hlen
            have hsum' : a + u.sum ≤ n := by simpa using hsum
            exact ⟨a, by omega, u, (ih (n - a) u).mpr ⟨hlen', by omega⟩, rfl⟩

theorem mem_subMonsG_true (k : Nat) :
    ∀ (n : Nat) (s : List Nat),
      s ∈ subMonsG true (k + 1) n ↔ (s.length = k + 1 ∧ s.sum = n) := by
  induction k with
  | zero =>
      intro n s
      show s ∈ [[n]] ↔ _
      simp only [List.mem_singleton]
      constructor
      · rintro rfl; simp
      · rintro ⟨hlen, hsum⟩
        match s with
        | [a] => simp at hsum ⊢; omega
  | succ k ih =>
      intro n s
      show s ∈ (List.range (n + 1)).flatMap _ ↔ _
      simp only [List.mem_flatMap, List.mem_map, List.mem_range]
      constructor
      · rintro ⟨i, hi, u, hu, rfl⟩
        have := (ih (n - i) u).mp hu
        simp [this.1]
        omega
      · rintro ⟨hlen, hsum⟩
        match s with
        | a :: u =>
            have hlen' : u.length = k + 1 := by simpa using hlen
            have hsum' : a + u.sum = n := by simpa using hsum
            exact ⟨a, by omega, u, (ih (n - a) u).mpr ⟨hlen', by omega⟩, rfl⟩

/-- Hockey-stick identity, proved from Pascal's rule. -/
theorem sum_range_choose_add (K n : Nat) :
    ∑ m ∈ Finset.range (n + 1), (m + K).choose K = (n + K + 1).choose (K + 1) := by
  induction n with
  | zero => simp
  | succ n ih =>
      rw [Finset.sum_range_succ, ih, Nat.add_right_comm n 1 K]
      rw [show n + K + 1 + 1 = (n + K + 1) + 1 from rfl, Nat.choose_succ_succ' (n + K + 1) K]
      omega

theorem length_subMonsG_false (k : Nat) :
    ∀ n : Nat, (subMonsG false (k + 1) n).length = (n + (k + 1)).choose (k + 1) := by
  induction k with
  | zero =>
      intro n
      show ((List.range (n + 1)).map (fun i => [i])).length = _
      simp [Nat.choose_one_right]
  | succ k ih =>
      intro n
      show ((List.range (n + 1)).flatMap _).length = _
      rw [List.length_flatMap]
      have hmap : (List.map (List.length ∘ fun i =>
          (subMonsG false (k + 1) (n - i)).map (fun s => i :: s)) (List.range (n + 1))).sum
          = ∑ i ∈ Finset.range (n + 1), (n - i + (k + 1)).choose (k + 1) := by
        have : ∀ i, (List.length ∘ fun i =>
            (subMonsG false (k + 1) (n - i)).map (fun s => i :: s)) i
            = (n - i + (k + 1)).choose (k + 1) := by
          intro i
          simp [ih (n - i)]
        rw [List.map_congr_left (fun i _ => this i)]
        rfl
      rw [hmap]
      have hrefl : ∑ i ∈ Finset.range (n + 1), (n - i + (k + 1)).choose (k + 1)
          = ∑ i ∈ Finset.range (n + 1), (i + (k + 1)).choose (k + 1) := by
        have := Finset.sum_range_reflect (fun i => (i + (k + 1)).choose (k + 1)) (n + 1)
        simpa using this
      rw [hrefl, sum_range_choose_add (k + 1) n]
      congr 1

theorem length_subMonsG_true (k : Nat) :
    ∀ n : Nat, (subMonsG true (k + 1) n).length = (n + k).choose k := by
  induction k with
  | zero => intro n; simp [subMonsG]
  | succ k ih =>
      intro n
      show ((List.range (n + 1)).flatMap _).length = _
      rw [List.length_flatMap]
      have hmap : (List.map (List.length ∘ fun i =>
          (subMonsG true (k + 1) (n - i)).map (fun s => i :: s)) (List.range (n + 1))).sum
          = ∑ i ∈ Finset.range (n + 1), (n - i + k).choose k := by
        have : ∀ i, (List.length ∘ fun i =>
            (subMonsG true (k + 1) (n - i)).map (fun s => i :: s)) i
            = (n - i + k).choose k := by
          intro i
          simp [ih (n - i)]
        rw [List.map_congr_left (fun i _ => this i)]
        rfl
      rw [hmap]
      have hrefl : ∑ i ∈ Finset.range (n + 1), (n - i + k).choose k
          = ∑ i ∈ Finset.range (n + 1), (i + k).choose k := by
        have := Finset.sum_range_reflect (fun i => (i + k).choose k) (n + 1)
        simpa using this
      rw [hrefl, sum_range_choose_add k n]
      rfl

/-- Top-level call of either enumeration on a fresh all-zero list of length
`dim ≥ 1` yields exactly `subMonsG` at `dim` positions. -/
theorem monCombos_top (highest : Bool) (dim degree : Nat) (hdim : 1 ≤ dim) :
    (monCombosF highest (dim + 1) (List.replicate dim 0) degree 0).1
      = subMonsG highest dim degree := by
  have := monCombosF_fst highest (dim + 1) (List.replicate dim 0) degree 0
    (by simp; omega) (by simp)
    (fun j _ => getD_replicate_zero dim j)
    (fun _ => getD_replicate_zero dim 0)
  rw [this]
  simp

/-- C2: on a zero list of length `dim ≥ 1` with budget `degree`,
`mon_combos` returns exactly the tuples of length `dim` with total degree
`≤ degree`, `C(dim+degree, dim)` of them; in particular `dim = 2`,
`degree = 2` yields exactly the six expected tuples. -/
theorem C2_mon_combos_counts :
    (∀ dim degree : Nat, 1 ≤ dim →
      (∀ t, t ∈ (mon_combos (List.replicate dim 0) degree 0).1 ↔
        (t.length = dim ∧ t.sum ≤ degree)) ∧
      (mon_combos (List.replicate dim 0) degree 0).1.length
        = (dim + degree).choose dim) ∧
    (mon_combos (List.replicate 2 0) 2 0).1
      = [[0, 0], [0, 1], [0, 2], [1, 0], [1, 1], [2, 0]] := by
  constructor
  · intro dim degree hdim
    have htop : (mon_combos (List.replicate dim 0) degree 0).1
        = subMonsG false dim degree := by
      show (monCombosF false ((List.replicate dim 0).length + 1)
        (List.replicate dim 0) degree 0).1 = _
      rw [List.length_replicate]
      exact monCombos_top false dim degree hdim
    obtain ⟨k, rfl⟩ : ∃ k, dim = k + 1 := ⟨dim - 1, by omega⟩
    constructor
    · intro t
      rw [htop]
      exact mem_subMonsG_false k degree t
    · rw [htop, length_subMonsG_false k degree]
      congr 1
      omega
  · decide

/-- Witness for C2: the claim instantiated at `dim = 2`, `degree = 2`. -/
theorem C2_mon_combos_counts_witness :
    (mon_combos (List.replicate 2 0) 2 0).1.length = (2 + 2).choose 2 :=
  (C2_mon_combos_counts.1 2 2 (by decide)).2

/-- C3: on a zero list of length `dim ≥ 1` with budget `degree ≥ 1`,
`mon_combos_highest` returns only tuples of length `dim` with total degree
exactly `degree`, `C(dim+degree-1, dim-1)` of them. -/
theorem C3_mon_combos_highest_counts (dim degree : Nat) (hdim : 1 ≤ dim)
    (hdeg : 1 ≤ degree) :
    (∀ t, t ∈ (mon_combos_highest (List.replicate dim 0) degree 0).1 →
      (t.length = dim ∧ t.sum = degree)) ∧
    (mon_combos_highest (List.replicate dim 0) degree 0).1.length
      = (dim + degree - 1).choose (dim - 1) := by
  have htop : (mon_combos_highest (List.replicate dim 0) degree 0).1
      = subMonsG true dim degree := by
    show (monCombosF true ((List.replicate dim 0).length + 1)
      (List.replicate dim 0) degree 0).1 = _
    rw [List.length_replicate]
    exact monCombos_top true dim degree hdim
  obtain ⟨k, rfl⟩ : ∃ k, dim = k + 1 := ⟨dim - 1, by omega⟩
  constructor
  · intro t ht
    rw [htop] at ht
    exact (mem_subMonsG_true k degree t).mp ht
  · rw [htop, length_subMonsG_true k degree]
    congr 1
    omega

/-- Witness for C3: the claim instantiated at `dim = 3`, `degree = 2`
(six monomials of degree exactly 2 in three variables). -/
theorem C3_mon_combos_highest_counts_witness :
    (mon_combos_highest (List.replicate 3 0) 2 0).1.length = (3 + 2 - 1).choose (3 - 1) :=
  (C3_mon_combos_highest_counts 3 2 (by decide) (by decide)).2

/-- C9 counterexample: with `dim = 1` the base-case loop
`mon[spot] = i` writes through to the caller, so after
`mon_combos([0], 1)` the caller's list holds `[1]`, not its original
contents — the claimed purity fails. -/
theorem C9_counterexample_dim_one :
    (mon_combos (List.replicate 1 0) 1 0).2 ≠ List.replicate 1 0 := by
  decide

/-- C9 (amended): the enumeration calls leave the caller's `mon` list
unchanged whenever it has length at least 2 (the recursive branch copies
`mon` into `temp` before writing); with length 1 the base case overwrites
`mon[0]` with the budget (`mon_combos` leaves the last loop value, which
equals the budget). -/
theorem C9_mon_combos_frame (mon : List Nat) (n : Nat) (h : 2 ≤ mon.length) :
    (mon_combos mon n 0).2 = mon ∧ (mon_combos_highest mon n 0).2 = mon := by
  constructor
  · show (monCombosF false (mon.length + 1) mon n 0).2 = mon
    obtain ⟨f, hf⟩ : ∃ f, mon.length + 1 = f + 1 := ⟨mon.length, rfl⟩
    rw [hf, monCombosF_snd false (f + 1) mon n 0 (by omega), if_neg (by omega)]
  · show (monCombosF true (mon.length + 1) mon n 0).2 = mon
    obtain ⟨f, hf⟩ : ∃ f, mon.length + 1 = f + 1 := ⟨mon.length, rfl⟩
    rw [hf, monCombosF_snd true (f + 1) mon n 0 (by omega), if_neg (by omega)]

/-- Witness for the amended C9 at a concrete two-variable list. -/
theorem C9_mon_combos_frame_witness :
    (mon_combos [0, 0] 3 0).2 = [0, 0] ∧ (mon_combos_highest [0, 0] 3 0).2 = [0, 0] :=
  C9_mon_combos_frame [0, 0] 3 (by decide)

/-! ## Row reordering (`row_swap_matrix`) -/

/-- Leading-nonzero column of a row: `np.where(row != 0)[0][0]` when the
row has a nonzero entry (index of the first nonzero, scanning left to
right). -/
def lead_col (row : List Int) : Nat := row.findIdx (fun x => !(x == 0))

/-- The per-row lookup `np.where(row != 0)[0][0]` as executed: `none`
models the `IndexError` raised when `np.where` returns an empty index
array, i.e. when the row is entirely zero. -/
def leading_index (row : List Int) : Option Nat :=
  if row.all (fun x => x == 0) then none else some (lead_col row)

/-- The loop `for row in matrix: leading_mon_columns.append(np.where(row!=0)[0][0])`,
with the `IndexError` propagating. -/
def leading_columns : List (List Int) → Option (List Nat)
  | [] => some []
  | row :: rest =>
      match leading_index row, leading_columns rest with
      | some k, some ks => some (k :: ks)
      | _, _ => none

/-- What `np.argsort(keys)` (called with its default `kind='quicksort'`)
guarantees about its result: a permutation of the indices
`0 .. len(keys)-1` that puts the keys into ascending order.  Numpy
documents this sort kind as not stable, so the relative order of equal
keys is left unspecified here: any permutation satisfying this contract
is a possible return value. -/
def argsortContract (keys p : List Nat) : Prop :=
  p.Perm (List.range keys.length) ∧
  p.Pairwise (fun i j => keys.getD i 0 ≤ keys.getD j 0)

/-- The key-then-original-index comparison used below to pick one
concrete `np.argsort` output for the executable embedding.  This is one
determinization of `argsortContract`; since numpy's default quicksort
does not specify the order of equal keys, no theorem may rely on this
tie-break — it serves only where the choice is irrelevant (the
raise-versus-return behaviour of `row_swap_matrix`) and as an existence
witness for the contract. -/
def argKey (keys : List Nat) (i j : Nat) : Prop :=
  keys.getD i 0 < keys.getD j 0 ∨ (keys.getD i 0 = keys.getD j 0 ∧ i ≤ j)

instance (keys : List Nat) : DecidableRel (argKey keys) := by
  unfold argKey
  infer_instance

instance (keys : List Nat) : IsTotal Nat (argKey keys) :=
  ⟨by intro i j; unfold argKey; omega⟩

instance (keys : List Nat) : IsTrans Nat (argKey keys) :=
  ⟨by intro a b c hab hbc; unfold argKey at hab hbc ⊢; omega⟩

/-- One concrete output of `np.argsort(keys)` satisfying
`argsortContract` — the executable embedding's choice; the program's
actual tie order is unspecified. -/
def argsort (keys : List Nat) : List Nat :=
  List.insertionSort (argKey keys) (List.range keys.length)

/-- `row_swap_matrix(matrix)`: compute every row's leading-nonzero column
and return `matrix[np.argsort(leading_mon_columns)]`; `none` models the
`IndexError` raised on an all-zero row.  (Executable determinization —
tie-order-sensitive properties are stated against `rowSwapResult`
below.) -/
def row_swap_matrix (matrix : List (List Int)) : Option (List (List Int)) :=
  (leading_columns matrix).map
    (fun keys => (argsort keys).map (fun i => matrix.getD i []))

/-- The possible values of `row_swap_matrix(matrix)`: `matrix[p]` for
some permutation `p` the `np.argsort` contract permits on the
leading-column keys (no result when a row is all zero, via
`leading_columns`). -/
def rowSwapResult (matrix res : List (List Int)) : Prop :=
  ∃ keys p, leading_columns matrix = some keys ∧ argsortContract keys p ∧
    res = p.map (fun i => matrix.getD i [])

theorem leading_index_isSome (row : List Int) :
    (leading_index row).isSome = true ↔ ∃ x ∈ row, x ≠ 0 := by
  unfold leading_index
  by_cases h : row.all (fun x => x == 0)
  · rw [if_pos h]
    simp only [Option.isSome_none, Bool.false_eq_true, false_iff]
    rw [List.all_eq_true] at h
    push_neg
    intro x hx
    have := h x hx
    simpa using this
  · rw [if_neg h]
    simp only [Option.isSome_some, true_iff]
    rw [List.all_eq_true] at h
    push_neg at h
    obtain ⟨x, hx, hne⟩ := h
    exact ⟨x, hx, by simpa using hne⟩

theorem leading_columns_eq (m : List (List Int)) (h : ∀ row ∈ m, ∃ x ∈ row, x ≠ 0) :
    leading_columns m = some (m.map lead_col) := by
  induction m with
  | nil => rfl
  | cons row rest ih =>
      have hrow : leading_index row = some (lead_col row) := by
        unfold leading_index
        rw [if_neg ?_]
        have := h row (by simp)
        obtain ⟨x, hx, hne⟩ := this
        intro hall
        rw [List.all_eq_true] at hall
        have := hall x hx
        simp at this
        exact hne this
      have hrest := ih (fun r hr => h r (by simp [hr]))
      simp [leading_columns, hrow, hrest]

theorem map_getD_range (m : List (List Int)) :
    (List.range m.length).map (fun i => m.getD i []) = m := by
  apply List.ext_getElem (by simp)
  intro n h1 h2
  rw [List.getElem_map, List.getElem_range]
  exact List.getD_eq_getElem m [] h2

theorem getD_map_lead_col (m : List (List Int)) (i : Nat) (h : i < m.length) :
    (m.map lead_col).getD i 0 = lead_col (m.getD i []) := by
  rw [List.getD_eq_getElem _ _ (by simpa using h), List.getElem_map]
  congr 1
  exact (List.getD_eq_getElem m [] h).symm

theorem leading_columns_some (m : List (List Int)) :
    ∀ keys, leading_columns m = some keys → keys = m.map lead_col := by
  induction m with
  | nil =>
      intro keys h
      simp only [leading_columns, Option.some.injEq] at h
      simp [← h]
  | cons row rest ih =>
      intro keys h
      simp only [leading_columns] at h
      cases hrow : leading_index row with
      | none => rw [hrow] at h; exact absurd h (by simp)
      | some k =>
          cases hrest : leading_columns rest with
          | none => rw [hrow, hrest] at h; exact absurd h (by simp)
          | some ks =>
              rw [hrow, hrest] at h
              simp only [Option.some.injEq] at h
              have hks := ih ks hrest
              have hk : k = lead_col row := by
                unfold leading_index at hrow
                by_cases hall : row.all (fun x => x == 0)
                · rw [if_pos hall] at hrow; cases hrow
                · rw [if_neg hall] at hrow; exact (Option.some.inj hrow).symm
              rw [← h, hks, hk]
              rfl

/-- C4 counterexample: the stable tie-break is not a property of the
program.  On the documented example matrix the leading columns are
`[1, 1, 0]`, and the `np.argsort` contract also permits the permutation
`[2, 1, 0]`, whose result orders the two leading-column-1 rows opposite
to their original order and differs from the output the claim asserts;
`kind='quicksort'` (the call's default) leaves the choice of tie order
unspecified, and numpy's introsort takes a non-stable option on larger
tied ranges. -/
theorem C4_counterexample_unstable_ties :
    rowSwapResult [[0, 2, 0, 2], [0, 1, 3, 0], [1, 2, 3, 4]]
      [[1, 2, 3, 4], [0, 1, 3, 0], [0, 2, 0, 2]] ∧
    ([[1, 2, 3, 4], [0, 1, 3, 0], [0, 2, 0, 2]] : List (List Int))
      ≠ [[1, 2, 3, 4], [0, 2, 0, 2], [0, 1, 3, 0]] := by
  constructor
  · exact ⟨[1, 1, 0], [2, 1, 0], by decide, ⟨by decide, by decide⟩, by decide⟩
  · decide

/-- C4 (amended): every result `row_swap_matrix` can return is the input
matrix with its rows reindexed by a permutation that puts the rows'
leading-nonzero column indices into ascending order — so it is a
permutation of the input's rows — but the relative order of rows with
equal leading columns is whatever `np.argsort`'s unstable default sort
produces, not guaranteed to be the original row order; on a matrix with
no all-zero row a result exists (the executable determinization returns
one), and the documented example output `[[1,2,3,4],[0,2,0,2],[0,1,3,0]]`
is among the contract-conformant results on the doctest matrix. -/
theorem C4_row_swap_matrix_ascending :
    (∀ m res : List (List Int), rowSwapResult m res →
      res.Perm m ∧ (res.map lead_col).Pairwise (fun x y => x ≤ y)) ∧
    (∀ m : List (List Int), (∀ row ∈ m, ∃ x ∈ row, x ≠ 0) →
      ∃ res, row_swap_matrix m = some res ∧ rowSwapResult m res) ∧
    rowSwapResult [[0, 2, 0, 2], [0, 1, 3, 0], [1, 2, 3, 4]]
      [[1, 2, 3, 4], [0, 2, 0, 2], [0, 1, 3, 0]] := by
  refine ⟨?_, ?_, ?_⟩
  · rintro m res ⟨keys, p, hkeys, ⟨hperm, hpair⟩, rfl⟩
    obtain rfl : keys = m.map lead_col := leading_columns_some m keys hkeys
    have hlen : (m.map lead_col).length = m.length := List.length_map m lead_col
    rw [hlen] at hperm
    constructor
    · have := hperm.map (fun i => m.getD i [])
      rw [map_getD_range m] at this
      exact this
    · rw [List.map_map, List.pairwise_map]
      apply hpair.imp_of_mem
      intro i j hi hj hle
      have hi' : i < m.length := by simpa using hperm.mem_iff.mp hi
      have hj' : j < m.length := by simpa using hperm.mem_iff.mp hj
      rw [getD_map_lead_col m i hi', getD_map_lead_col m j hj'] at hle
      exact hle
  · intro m h
    refine ⟨(argsort (m.map lead_col)).map (fun i => m.getD i []), ?_, ?_⟩
    · unfold row_swap_matrix
      rw [leading_columns_eq m h]
      rfl
    · refine ⟨m.map lead_col, argsort (m.map lead_col), leading_columns_eq m h, ⟨?_, ?_⟩, rfl⟩
      · show (List.insertionSort (argKey (m.map lead_col))
          (List.range (m.map lead_col).length)).Perm (List.range (m.map lead_col).length)
        exact List.perm_insertionSort _ _
      · have hs := List.sorted_insertionSort (argKey (m.map lead_col))
          (List.range (m.map lead_col).length)
        refine List.Pairwise.imp ?_ hs
        intro i j hij
        unfold argKey at hij
        omega
  · exact ⟨[1, 1, 0], [2, 0, 1], by decide, ⟨by decide, by decide⟩, by decide⟩

/-- Witness for the amended C4: a result exists on the documented example
matrix and conforms to the contract. -/
theorem C4_row_swap_matrix_ascending_witness :
    ∃ res, row_swap_matrix [[0, 2, 0, 2], [0, 1, 3, 0], [1, 2, 3, 4]] = some res ∧
      rowSwapResult [[0, 2, 0, 2], [0, 1, 3, 0], [1, 2, 3, 4]] res :=
  C4_row_swap_matrix_ascending.2.1 [[0, 2, 0, 2], [0, 1, 3, 0], [1, 2, 3, 4]] (by decide)

theorem leading_columns_isSome (m : List (List Int)) :
    (leading_columns m).isSome = true ↔ ∀ row ∈ m, (leading_index row).isSome = true := by
  induction m with
  | nil => simp [leading_columns]
  | cons row rest ih =>
      simp only [leading_columns]
      cases hrow : leading_index row with
      | none => simp [hrow]
      | some k =>
          cases hrest : leading_columns rest with
          | none =>
              rw [hrest] at ih
              simp only [Option.isSome_none, Bool.false_eq_true, false_iff] at ih
              push_neg at ih
              obtain ⟨r, hr, hall⟩ := ih
              simp only [Option.isSome_some, Option.isSome_none]
              constructor
              · intro hfalse; cases hfalse
              · intro hforall
                have := hforall r (by simp [hr])
                simp [this] at hall
          | some ks =>
              rw [hrest] at ih
              simp only [Option.isSome_some, true_iff] at ih
              simp only [Option.isSome_some, true_iff]
              intro r hr
              rcases List.mem_cons.mp hr with rfl | hr'
              · simp [hrow]
              · exact ih r hr'

/-- C10: `row_swap_matrix` raises (returns no result) exactly when some
row is entirely zero — the leading-nonzero lookup is then out of bounds —
and returns normally whenever every row has a nonzero entry. -/
theorem C10_row_swap_matrix_zero_row (m : List (List Int)) :
    (row_swap_matrix m).isSome = true ↔ ∀ row ∈ m, ∃ x ∈ row, x ≠ 0 := by
  unfold row_swap_matrix
  rw [show ((leading_columns m).map
      (fun keys => (argsort keys).map (fun i => m.getD i []))).isSome
    = (leading_columns m).isSome from Option.isSome_map]
  rw [leading_columns_isSome m]
  constructor
  · intro h row hrow
    exact (leading_index_isSome row).mp (h row hrow)
  · intro h row hrow
    exact (leading_index_isSome row).mpr (h row hrow)

/-- Witness for C10 at a concrete matrix with no zero row. -/
theorem C10_row_swap_matrix_zero_row_witness :
    (row_swap_matrix [[0, 1], [2, 0]]).isSome = true ↔
      ∀ row ∈ ([[0, 1], [2, 0]] : List (List Int)), ∃ x ∈ row, x ≠ 0 :=
  C10_row_swap_matrix_zero_row [[0, 1], [2, 0]]

/-! ## Numpy array model (`slice_top`, `match_size`, `clean_zeros_from_matrix`,
`match_poly_dimensions`)

An n-dimensional array is a shape plus a value at every multi-index; two
arrays are compared on their in-bounds entries only.  The embedding is a
pure value model: numpy's in-place writes (`a_new[...] = a`) become the
construction of the written array, and `np.zeros` allocations are fresh
values, so the originals are untouched by construction.  Numpy calls that
raise (`ValueError` from broadcasting, `IndexError` from too many
indices) are embedded as `none`. -/

/-- A dense n-dimensional numeric array: its shape and its entry at each
multi-index (entries at out-of-bounds indices are irrelevant). -/
structure NDArray where
  shape : List Nat
  get : List Nat → ℚ

/-- Multi-index `idx` addresses an entry of an array of shape `shape`. -/
def inBounds (shape idx : List Nat) : Prop :=
  idx.length = shape.length ∧ ∀ i, i < shape.length → idx.getD i 0 < shape.getD i 0

instance (shape idx : List Nat) : Decidable (inBounds shape idx) := by
  unfold inBounds
  infer_instance

/-- `np.zeros(shape)`. -/
def np_zeros (shape : List Nat) : NDArray := ⟨shape, fun _ => 0⟩

/-- `slice_top(matrix)`: the list `[slice(0, i) for i in matrix.shape]`,
each slice represented by its `(start, stop)` pair (all starts are 0). -/
def slice_top (m : NDArray) : List (Nat × Nat) := m.shape.map (fun i => (0, i))

/-- Numpy broadcast compatibility of a source shape `s` against a target
shape `v`: axes are aligned from the trailing end and each source axis
must equal the target axis or be 1. -/
def broadcastable (s v : List Nat) : Prop :=
  s.length ≤ v.length ∧
  ∀ i, i < s.length →
    (s.getD (s.length - 1 - i) 1 = v.getD (v.length - 1 - i) 1 ∨
      s.getD (s.length - 1 - i) 1 = 1)

instance (s v : List Nat) : Decidable (broadcastable s v) := by
  unfold broadcastable
  infer_instance

/-- Pull a target multi-index (of rank `vlen`) back through a broadcast to
the source array: leading extra axes are dropped, and axes of extent 1 in
the source always address entry 0. -/
def broadcastPull (s : List Nat) (vlen : Nat) (idx : List Nat) : List Nat :=
  List.zipWith (fun i d => if d = 1 then 0 else i) (idx.drop (vlen - s.length)) s

/-- Basic-slicing read `m[slices]` for start-0 slices as produced by
`slice_top`: `none` is the `IndexError` for more slices than axes; sliced
axes are clipped to the axis extent and unsliced trailing axes are taken
whole. -/
def getitem_slices (m : NDArray) (slices : List (Nat × Nat)) : Option NDArray :=
  if m.shape.length < slices.length then none
  else some
    { shape := List.zipWith (fun sl d => min sl.2 d) slices m.shape
        ++ m.shape.drop slices.length
      get := m.get }

/-- The shape of the view `target[slice_top(src)]`: sliced axes are
clipped to the axis extent, unsliced trailing axes are taken whole. -/
def view_shape (target src : NDArray) : List Nat :=
  List.zipWith (fun sl d => min sl.2 d) (slice_top src) target.shape
    ++ target.shape.drop (slice_top src).length

/-- Slice assignment `target[slice_top(src)] = src`: the start-0 sliced
view of `target` is filled with `src` broadcast to the view's shape, the
rest of `target` is unchanged.  `none` embeds numpy's `IndexError` (too
many indices) and `ValueError` (shapes not broadcastable). -/
def setitem_slice_top (target src : NDArray) : Option NDArray :=
  if target.shape.length < (slice_top src).length then none
  else if broadcastable src.shape (view_shape target src) then
    some { shape := target.shape
           get := fun idx =>
             if inBounds (view_shape target src) idx then
               src.get (broadcastPull src.shape (view_shape target src).length idx)
             else target.get idx }
  else none

/-- `np.maximum(a.shape, b.shape)` on the two shape tuples (1-d integer
arrays): elementwise maximum with numpy broadcasting between the two
operands — a length-1 operand is broadcast across the other; `none` is
the `ValueError` when lengths differ and neither is 1. -/
def np_maximum (s t : List Nat) : Option (List Nat) :=
  if s.length = t.length then some (List.zipWith max s t)
  else if s.length = 1 then some (t.map (fun x => max (s.getD 0 0) x))
  else if t.length = 1 then some (s.map (fun x => max x (t.getD 0 0)))
  else none

/-- `match_size(a, b)`:
`new_shape = np.maximum(a.shape, b.shape);
 a_new = np.zeros(new_shape); a_new[slice_top(a)] = a;
 b_new = np.zeros(new_shape); b_new[slice_top(b)] = b;
 return a_new, b_new`, with any numpy error propagating. -/
def match_size (a b : NDArray) : Option (NDArray × NDArray) :=
  match np_maximum a.shape b.shape with
  | none => none
  | some new_shape =>
      match setitem_slice_top (np_zeros new_shape) a with
      | none => none
      | some a_new =>
          match setitem_slice_top (np_zeros new_shape) b with
          | none => none
          | some b_new => some (a_new, b_new)

/-- `clean_zeros_from_matrix(array, accuracy)`: the elementwise write
`array[(array < accuracy) & (array > -accuracy)] = 0` followed by
`return array`, on the (flattened) entries of the array. -/
def clean_zeros_from_matrix (array : List ℚ) (accuracy : ℚ) : List ℚ :=
  array.map (fun x => if x < accuracy ∧ -accuracy < x then 0 else x)

theorem inBounds_nil (idx : List Nat) : inBounds [] idx ↔ idx = [] := by
  unfold inBounds
  constructor
  · rintro ⟨h, _⟩
    exact List.eq_nil_of_length_eq_zero h
  · rintro rfl
    refine ⟨rfl, ?_⟩
    intro i hi
    simp at hi

theorem inBounds_cons (d : Nat) (ds : List Nat) (i : Nat) (idx : List Nat) :
    inBounds (d :: ds) (i :: idx) ↔ i < d ∧ inBounds ds idx := by
  unfold inBounds
  constructor
  · rintro ⟨hlen, hall⟩
    refine ⟨by simpa [List.getD] using hall 0 (by simp), by simpa using hlen, ?_⟩
    intro j hj
    have := hall (j + 1) (by simpa using Nat.succ_lt_succ hj)
    simpa [List.getD] using this
  · rintro ⟨hi, hlen, hall⟩
    refine ⟨by simpa using hlen, ?_⟩
    intro j hj
    cases j with
    | zero => simpa [List.getD] using hi
    | succ j =>
        have := hall j (by simpa using Nat.lt_of_succ_lt_succ hj)
        simpa [List.getD] using this

theorem zipWith_slice_eq (s : List Nat) :
    ∀ t : List Nat,
      List.zipWith (fun sl d => min sl.2 d) (s.map (fun i => ((0 : Nat), i))) t
        = List.zipWith min s t := by
  induction s with
  | nil => intro t; rfl
  | cons x s ih =>
      intro t
      cases t with
      | nil => rfl
      | cons y t => simp [ih]

theorem zipWith_min_max_left (s : List Nat) :
    ∀ u : List Nat, s.length ≤ u.length →
      List.zipWith min s (List.zipWith max s u) = s := by
  induction s with
  | nil => intro u _; rfl
  | cons x s ih =>
      intro u h
      cases u with
      | nil => simp at h
      | cons y u =>
          simp only [List.zipWith_cons_cons]
          rw [ih u (by simpa using h)]
          congr 1
          omega

theorem zipWith_min_max_right (u : List Nat) :
    ∀ s : List Nat, u.length ≤ s.length →
      List.zipWith min u (List.zipWith max s u) = u := by
  induction u with
  | nil => intro s _; cases s <;> rfl
  | cons y u ih =>
      intro s h
      cases s with
      | nil => simp at h
      | cons x s =>
          simp only [List.zipWith_cons_cons]
          rw [ih s (by simpa using h)]
          congr 1
          omega

theorem zipWith_pull_self (s : List Nat) :
    ∀ idx : List Nat, inBounds s idx →
      List.zipWith (fun i d => if d = 1 then 0 else i) idx s = idx := by
  induction s with
  | nil =>
      intro idx h
      obtain rfl := (inBounds_nil idx).mp h
      rfl
  | cons d ds ih =>
      intro idx h
      cases idx with
      | nil =>
          exfalso
          obtain ⟨hlen, _⟩ := h
          simp at hlen
      | cons i idx =>
          obtain ⟨hi, h'⟩ := (inBounds_cons d ds i idx).mp h
          simp only [List.zipWith_cons_cons]
          rw [ih idx h']
          congr 1
          by_cases hd : d = 1
          · subst hd
            rw [if_pos rfl]
            omega
          · simp [hd]

/-- When `src` and `target` have the same rank and `src` fits inside
`target` axis by axis, the slice assignment writes `src` verbatim onto
the top corner and leaves the rest of `target` as it was. -/
theorem setitem_slice_top_eq (t src : NDArray)
    (hr : src.shape.length = t.shape.length)
    (hmin : List.zipWith min src.shape t.shape = src.shape) :
    setitem_slice_top t src
      = some ⟨t.shape, fun idx =>
          if inBounds src.shape idx then src.get idx else t.get idx⟩ := by
  have hsl : (slice_top src).length = src.shape.length := by simp [slice_top]
  have hv : view_shape t src = src.shape := by
    unfold view_shape
    rw [show slice_top src = src.shape.map (fun i => ((0 : Nat), i)) from rfl]
    rw [zipWith_slice_eq, hmin, List.length_map, List.drop_eq_nil_of_le (by omega),
      List.append_nil]
  unfold setitem_slice_top
  rw [if_neg (by omega), hv, if_pos ⟨le_refl _, fun i _ => Or.inl rfl⟩]
  congr 1
  congr 1
  funext idx
  by_cases hb : inBounds src.shape idx
  · rw [if_pos hb, if_pos hb]
    congr 1
    unfold broadcastPull
    rw [Nat.sub_self, List.drop_zero]
    exact zipWith_pull_self src.shape idx hb
  · rw [if_neg hb, if_neg hb]

/-- C5: on same-rank arrays, `match_size` returns two arrays of the
elementwise-maximum shape; each carries its original's entries unchanged
at their original indices and is zero elsewhere (the buffers start as
fresh `np.zeros`, so the originals are untouched — the embedding builds
new values and never rewrites `a` or `b`); slicing each result by
`slice_top` of the corresponding original recovers that original. -/
theorem C5_match_size_pads (a b : NDArray) (h : a.shape.length = b.shape.length) :
    ∃ a' b', match_size a b = some (a', b') ∧
      a'.shape = List.zipWith max a.shape b.shape ∧
      b'.shape = List.zipWith max a.shape b.shape ∧
      (∀ idx, inBounds a.shape idx → a'.get idx = a.get idx) ∧
      (∀ idx, ¬ inBounds a.shape idx → a'.get idx = 0) ∧
      (∀ idx, inBounds b.shape idx → b'.get idx = b.get idx) ∧
      (∀ idx, ¬ inBounds b.shape idx → b'.get idx = 0) ∧
      (∃ ra, getitem_slices a' (slice_top a) = some ra ∧ ra.shape = a.shape ∧
        ∀ idx, inBounds a.shape idx → ra.get idx = a.get idx) ∧
      (∃ rb, getitem_slices b' (slice_top b) = some rb ∧ rb.shape = b.shape ∧
        ∀ idx, inBounds b.shape idx → rb.get idx = b.get idx) := by
  have hmax : np_maximum a.shape b.shape = some (List.zipWith max a.shape b.shape) := by
    unfold np_maximum
    rw [if_pos h]
  have hnslen : (List.zipWith max a.shape b.shape).length = a.shape.length := by
    rw [List.length_zipWith]
    omega
  have hmina : List.zipWith min a.shape (np_zeros (List.zipWith max a.shape b.shape)).shape
      = a.shape := zipWith_min_max_left a.shape b.shape (by omega)
  have hminb : List.zipWith min b.shape (np_zeros (List.zipWith max a.shape b.shape)).shape
      = b.shape := zipWith_min_max_right b.shape a.shape (by omega)
  have hza := setitem_slice_top_eq (np_zeros (List.zipWith max a.shape b.shape)) a
    (by show a.shape.length = (List.zipWith max a.shape b.shape).length; omega) hmina
  have hzb := setitem_slice_top_eq (np_zeros (List.zipWith max a.shape b.shape)) b
    (by show b.shape.length = (List.zipWith max a.shape b.shape).length; omega) hminb
  have hshape_eq : List.zipWith (fun sl d => min sl.2 d) (slice_top a)
      (np_zeros (List.zipWith max a.shape b.shape)).shape
      ++ (np_zeros (List.zipWith max a.shape b.shape)).shape.drop (slice_top a).length
      = a.shape := by
    rw [show slice_top a = a.shape.map (fun i => ((0 : Nat), i)) from rfl]
    rw [zipWith_slice_eq, hmina, List.length_map,
      List.drop_eq_nil_of_le
        (by show (List.zipWith max a.shape b.shape).length ≤ a.shape.length; omega),
      List.append_nil]
  have hshape_eq' : List.zipWith (fun sl d => min sl.2 d) (slice_top b)
      (np_zeros (List.zipWith max a.shape b.shape)).shape
      ++ (np_zeros (List.zipWith max a.shape b.shape)).shape.drop (slice_top b).length
      = b.shape := by
    rw [show slice_top b = b.shape.map (fun i => ((0 : Nat), i)) from rfl]
    rw [zipWith_slice_eq, hminb, List.length_map,
      List.drop_eq_nil_of_le
        (by show (List.zipWith max a.shape b.shape).length ≤ b.shape.length; omega),
      List.append_nil]
  have hsta : (slice_top a).length = a.shape.length := by simp [slice_top]
  have hstb : (slice_top b).length = b.shape.length := by simp [slice_top]
  refine ⟨⟨(np_zeros (List.zipWith max a.shape b.shape)).shape,
      fun idx => if inBounds a.shape idx then a.get idx
        else (np_zeros (List.zipWith max a.shape b.shape)).get idx⟩,
    ⟨(np_zeros (List.zipWith max a.shape b.shape)).shape,
      fun idx => if inBounds b.shape idx then b.get idx
        else (np_zeros (List.zipWith max a.shape b.shape)).get idx⟩,
    ?_, rfl, rfl, ?_, ?_, ?_, ?_, ?_, ?_⟩
  · unfold match_size
    rw [hmax]
    simp only [hza, hzb]
  · intro idx hidx
    show (if inBounds a.shape idx then a.get idx else _) = a.get idx
    rw [if_pos hidx]
  · intro idx hidx
    show (if inBounds a.shape idx then a.get idx else (np_zeros _).get idx) = 0
    rw [if_neg hidx]
    rfl
  · intro idx hidx
    show (if inBounds b.shape idx then b.get idx else _) = b.get idx
    rw [if_pos hidx]
  · intro idx hidx
    show (if inBounds b.shape idx then b.get idx else (np_zeros _).get idx) = 0
    rw [if_neg hidx]
    rfl
  · refine ⟨⟨List.zipWith (fun sl d => min sl.2 d) (slice_top a)
        (np_zeros (List.zipWith max a.shape b.shape)).shape
        ++ (np_zeros (List.zipWith max a.shape b.shape)).shape.drop (slice_top a).length,
      fun idx => if inBounds a.shape idx then a.get idx
        else (np_zeros (List.zipWith max a.shape b.shape)).get idx⟩, ?_, hshape_eq, ?_⟩
    · unfold getitem_slices
      rw [if_neg
        (by show ¬ (List.zipWith max a.shape b.shape).length < (slice_top a).length; omega)]
    · intro idx hidx
      show (if inBounds a.shape idx then a.get idx else _) = a.get idx
      rw [if_pos hidx]
  · refine ⟨⟨List.zipWith (fun sl d => min sl.2 d) (slice_top b)
        (np_zeros (List.zipWith max a.shape b.shape)).shape
        ++ (np_zeros (List.zipWith max a.shape b.shape)).shape.drop (slice_top b).length,
      fun idx => if inBounds b.shape idx then b.get idx
        else (np_zeros (List.zipWith max a.shape b.shape)).get idx⟩, ?_, hshape_eq', ?_⟩
    · unfold getitem_slices
      rw [if_neg
        (by show ¬ (List.zipWith max a.shape b.shape).length < (slice_top b).length; omega)]
    · intro idx hidx
      show (if inBounds b.shape idx then b.get idx else _) = b.get idx
      rw [if_pos hidx]

/-- Witness for C5 at a concrete pair of same-rank arrays. -/
theorem C5_match_size_pads_witness :
    ∃ a' b', match_size ⟨[1], fun _ => 3⟩ ⟨[2], fun _ => 7⟩ = some (a', b') ∧
      a'.shape = List.zipWith max [1] [2] ∧
      b'.shape = List.zipWith max [1] [2] ∧
      (∀ idx, inBounds [1] idx → a'.get idx = (3 : ℚ)) ∧
      (∀ idx, ¬ inBounds [1] idx → a'.get idx = 0) ∧
      (∀ idx, inBounds [2] idx → b'.get idx = (7 : ℚ)) ∧
      (∀ idx, ¬ inBounds [2] idx → b'.get idx = 0) ∧
      (∃ ra, getitem_slices a' (slice_top ⟨[1], fun _ => 3⟩) = some ra ∧ ra.shape = [1] ∧
        ∀ idx, inBounds [1] idx → ra.get idx = (3 : ℚ)) ∧
      (∃ rb, getitem_slices b' (slice_top ⟨[2], fun _ => 7⟩) = some rb ∧ rb.shape = [2] ∧
        ∀ idx, inBounds [2] idx → rb.get idx = (7 : ℚ)) :=
  C5_match_size_pads ⟨[1], fun _ => 3⟩ ⟨[2], fun _ => 7⟩ rfl

/-- C6: every entry with absolute value strictly below the tolerance
becomes exactly 0, every entry with absolute value at or above it is
unchanged (the Python mask `(array < accuracy) & (array > -accuracy)`
selects exactly `|x| < accuracy`), and a second application changes
nothing.  The Python call writes through the caller's array and returns
that same object; the embedding returns the written contents. -/
theorem C6_clean_zeros_from_matrix (arr : List ℚ) (tol : ℚ) (_htol : 0 ≤ tol) :
    (clean_zeros_from_matrix arr tol).length = arr.length ∧
    (∀ i, i < arr.length → |arr.getD i 0| < tol →
      (clean_zeros_from_matrix arr tol).getD i 0 = 0) ∧
    (∀ i, i < arr.length → tol ≤ |arr.getD i 0| →
      (clean_zeros_from_matrix arr tol).getD i 0 = arr.getD i 0) ∧
    clean_zeros_from_matrix (clean_zeros_from_matrix arr tol) tol
      = clean_zeros_from_matrix arr tol := by
  refine ⟨by simp [clean_zeros_from_matrix], ?_, ?_, ?_⟩
  · intro i hi habs
    unfold clean_zeros_from_matrix
    rw [List.getD_eq_getElem _ _ (by simpa using hi), List.getElem_map,
      ← List.getD_eq_getElem arr 0 hi]
    rw [abs_lt] at habs
    rw [if_pos ⟨habs.2, habs.1⟩]
  · intro i hi habs
    unfold clean_zeros_from_matrix
    rw [List.getD_eq_getElem _ _ (by simpa using hi), List.getElem_map,
      ← List.getD_eq_getElem arr 0 hi]
    rw [if_neg]
    rintro ⟨h1, h2⟩
    have : |arr.getD i 0| < tol := abs_lt.mpr ⟨h2, h1⟩
    linarith
  · unfold clean_zeros_from_matrix
    rw [List.map_map]
    apply List.map_congr_left
    intro x _
    rw [Function.comp_apply]
    by_cases hc : x < tol ∧ -tol < x
    · rw [if_pos hc]
      by_cases h0 : (0 : ℚ) < tol ∧ -tol < 0
      · rw [if_pos h0]
      · rw [if_neg h0]
    · rw [if_neg hc, if_neg hc]

/-- Witness for C6 at a concrete array and tolerance. -/
theorem C6_clean_zeros_from_matrix_witness :
    (clean_zeros_from_matrix [1/2, 2] 1).length = ([1/2, 2] : List ℚ).length ∧
    (∀ i, i < ([1/2, 2] : List ℚ).length → |([1/2, 2] : List ℚ).getD i 0| < 1 →
      (clean_zeros_from_matrix [1/2, 2] 1).getD i 0 = 0) ∧
    (∀ i, i < ([1/2, 2] : List ℚ).length → 1 ≤ |([1/2, 2] : List ℚ).getD i 0| →
      (clean_zeros_from_matrix [1/2, 2] 1).getD i 0 = ([1/2, 2] : List ℚ).getD i 0) ∧
    clean_zeros_from_matrix (clean_zeros_from_matrix [1/2, 2] 1) 1
      = clean_zeros_from_matrix [1/2, 2] 1 :=
  C6_clean_zeros_from_matrix [1/2, 2] 1 (by norm_num)

/-- A rank-2 array of shape `(2, 2)` with constant entries. -/
def exA : NDArray := ⟨[2, 2], fun _ => 1⟩

/-- A rank-1 array of shape `(2,)` holding the entries `[5, 6]`. -/
def exB : NDArray := ⟨[2], fun idx => if idx.getD 0 0 = 0 then 5 else 6⟩

/-- C7 counterexample: `match_size` on the mismatched-rank pair
(shape `(2, 2)` against shape `(2,)`) does not fail — the call returns a
result, produced by numpy broadcasting. -/
theorem C7_counterexample_rank_mismatch_returns :
    (match_size exA exB).isSome = true := by decide

/-- The pair returned by the mismatched-rank call. -/
def msPair : NDArray × NDArray :=
  (match_size exA exB).getD (np_zeros [], np_zeros [])

/-- C7 (amended): `match_size` has no rank check.  On mismatched-rank
operands whose shapes happen to broadcast, it returns normally with the
lower-rank operand silently broadcast — here `b = [5, 6]` is copied into
both rows of the `(2, 2)` result.  Only broadcast-incompatible shape
combinations fail, with the underlying numpy `ValueError` (embedded as
`none`), not a dedicated `DimensionMismatch` signal. -/
theorem C7_match_size_silent_broadcast :
    msPair.2.shape = [2, 2] ∧
    msPair.2.get [0, 0] = 5 ∧ msPair.2.get [0, 1] = 6 ∧
    msPair.2.get [1, 0] = 5 ∧ msPair.2.get [1, 1] = 6 ∧
    match_size ⟨[2, 3], fun _ => 0⟩ ⟨[2, 3, 4], fun _ => 0⟩ = none := by
  exact ⟨by decide, by decide, by decide, by decide, by decide, rfl⟩

/-! ## Dimension alignment (`match_poly_dimensions`) -/

/-- Modelled from the spec: the polynomial class is external to this
module (the solver layer owns it); per the spec it exposes a coefficient
tensor `coeff` shaped by the polynomial, `dim` — its number of variables —
is the tensor's rank, and `shape` is the tensor's shape. -/
structure PolyObj where
  coeff : NDArray

/-- Modelled from the spec: `poly.dim`, the number of variables, equals
the rank of the coefficient tensor. -/
def PolyObj.dim (p : PolyObj) : Nat := p.coeff.shape.length

/-- Modelled from the spec: `poly.shape` is the coefficient tensor's
shape. -/
def PolyObj.shape (p : PolyObj) : List Nat := p.coeff.shape

/-- Modelled from the spec: `poly.__init__(c)` rebuilds the polynomial
object around the coefficient tensor `c`. -/
def PolyObj.init (c : NDArray) : PolyObj := ⟨c⟩

/-- Row-major (C-order) flat offset of a multi-index in a given shape. -/
def flatIndex : List Nat → List Nat → Nat
  | [], _ => 0
  | _ :: ds, idx => idx.headD 0 * ds.prod + flatIndex ds idx.tail

/-- Row-major multi-index of a flat offset in a given shape. -/
def unflatten : List Nat → Nat → List Nat
  | [], _ => []
  | _ :: ds, k => k / ds.prod :: unflatten ds (k % ds.prod)

/-- `np.reshape` (C order): same flat data viewed through a new shape;
`none` is the `ValueError` when the total sizes differ. -/
def NDArray.reshape (m : NDArray) (s : List Nat) : Option NDArray :=
  if s.prod = m.shape.prod then
    some ⟨s, fun idx => m.get (unflatten m.shape (flatIndex s idx))⟩
  else none

/-- The loop of `match_poly_dimensions`: for each polynomial whose `dim`
is below the target, insert leading length-1 axes
(`coeff_shape.insert(0, 1)` repeated) and re-initialise the polynomial
from the reshaped tensor; polynomials already at the target dimension are
passed through. -/
def align_loop (dim : Nat) : List PolyObj → Option (List PolyObj)
  | [] => some []
  | p :: rest =>
      match (if p.dim ≠ dim then
          (p.coeff.reshape (List.replicate (dim - p.dim) 1 ++ p.shape)).map PolyObj.init
        else some p),
        align_loop dim rest with
      | some q, some qs => some (q :: qs)
      | _, _ => none

/-- `match_poly_dimensions(polys)`: `dim = max(poly.dim for poly in polys)`
(a `ValueError` on an empty list, embedded as `none`), then the alignment
loop. -/
def match_poly_dimensions (polys : List PolyObj) : Option (List PolyObj) :=
  match polys with
  | [] => none
  | p :: rest => align_loop (((p :: rest).map PolyObj.dim).foldl max 0) (p :: rest)

/-- Placeholder polynomial used only as a `getD` default. -/
def defaultPoly : PolyObj := ⟨np_zeros []⟩

theorem foldl_max_bound (l : List Nat) :
    ∀ a : Nat, (∀ x ∈ l, x ≤ l.foldl max a) ∧ a ≤ l.foldl max a := by
  induction l with
  | nil => intro a; exact ⟨by simp, le_refl a⟩
  | cons y l ih =>
      intro a
      have h := ih (max a y)
      constructor
      · intro x hx
        rcases List.mem_cons.mp hx with rfl | hx'
        · exact le_trans (le_max_right a x) h.2
        · exact h.1 x hx'
      · exact le_trans (le_max_left a y) h.2

theorem flatIndex_lt (s : List Nat) :
    ∀ idx : List Nat, inBounds s idx → flatIndex s idx < s.prod := by
  induction s with
  | nil =>
      intro idx h
      show 0 < 1
      omega
  | cons d ds ih =>
      intro idx h
      cases idx with
      | nil =>
          exfalso
          obtain ⟨hlen, _⟩ := h
          simp at hlen
      | cons i idx =>
          obtain ⟨hi, h'⟩ := (inBounds_cons d ds i idx).mp h
          have hf := ih idx h'
          show (i :: idx).headD 0 * ds.prod + flatIndex ds (i :: idx).tail < (d :: ds).prod
          simp only [List.headD_cons, List.tail_cons, List.prod_cons]
          calc i * ds.prod + flatIndex ds idx
              < i * ds.prod + ds.prod := by omega
            _ = (i + 1) * ds.prod := by ring
            _ ≤ d * ds.prod := Nat.mul_le_mul_right ds.prod (by omega)

theorem unflatten_flatIndex (s : List Nat) :
    ∀ idx : List Nat, inBounds s idx → unflatten s (flatIndex s idx) = idx := by
  induction s with
  | nil =>
      intro idx h
      obtain rfl := (inBounds_nil idx).mp h
      rfl
  | cons d ds ih =>
      intro idx h
      cases idx with
      | nil =>
          exfalso
          obtain ⟨hlen, _⟩ := h
          simp at hlen
      | cons i idx =>
          obtain ⟨hi, h'⟩ := (inBounds_cons d ds i idx).mp h
          have hf := flatIndex_lt ds idx h'
          have hpos : 0 < ds.prod := by omega
          show (i * ds.prod + flatIndex ds idx) / ds.prod
              :: unflatten ds ((i * ds.prod + flatIndex ds idx) % ds.prod) = i :: idx
          have hdiv : (i * ds.prod + flatIndex ds idx) / ds.prod = i := by
            rw [Nat.add_comm, Nat.add_mul_div_right _ _ hpos, Nat.div_eq_of_lt hf]
            omega
          have hmod : (i * ds.prod + flatIndex ds idx) % ds.prod = flatIndex ds idx := by
            rw [Nat.add_comm, Nat.add_mul_mod_self_right, Nat.mod_eq_of_lt hf]
          rw [hdiv, hmod, ih idx h']

theorem flatIndex_ones_pad (e : Nat) (s idx : List Nat) :
    flatIndex (List.replicate e 1 ++ s) (List.replicate e 0 ++ idx) = flatIndex s idx := by
  induction e with
  | zero => rfl
  | succ e ih =>
      show (0 : Nat) * (List.replicate e 1 ++ s).prod
          + flatIndex (List.replicate e 1 ++ s) (List.replicate e 0 ++ idx) = _
      rw [Nat.zero_mul, Nat.zero_add, ih]

/-- Prepending length-1 axes is always a legal reshape, and reading the
reshaped tensor at an index padded with leading zeros reads the original
entry. -/
theorem reshape_prepend_ones (m : NDArray) (e : Nat) :
    ∃ c, m.reshape (List.replicate e 1 ++ m.shape) = some c ∧
      c.shape = List.replicate e 1 ++ m.shape ∧
      ∀ idx, inBounds m.shape idx →
        c.get (List.replicate e 0 ++ idx) = m.get idx := by
  refine ⟨⟨List.replicate e 1 ++ m.shape,
    fun idx => m.get (unflatten m.shape (flatIndex (List.replicate e 1 ++ m.shape) idx))⟩,
    ?_, rfl, ?_⟩
  · unfold NDArray.reshape
    rw [if_pos (by simp)]
  · intro idx hidx
    show m.get (unflatten m.shape (flatIndex (List.replicate e 1 ++ m.shape)
      (List.replicate e 0 ++ idx))) = m.get idx
    rw [flatIndex_ones_pad, unflatten_flatIndex m.shape idx hidx]

/-- Effect of one iteration of the alignment loop on one polynomial. -/
theorem align_elem (dim : Nat) (p : PolyObj) (hle : p.dim ≤ dim) :
    ∃ q, (if p.dim ≠ dim then
        (p.coeff.reshape (List.replicate (dim - p.dim) 1 ++ p.shape)).map PolyObj.init
      else some p) = some q ∧
      q.dim = dim ∧
      q.shape = List.replicate (dim - p.dim) 1 ++ p.shape ∧
      ∀ idx, inBounds p.shape idx →
        q.coeff.get (List.replicate (dim - p.dim) 0 ++ idx) = p.coeff.get idx := by
  by_cases hd : p.dim ≠ dim
  · obtain ⟨c, hc, hcs, hcg⟩ := reshape_prepend_ones p.coeff (dim - p.dim)
    refine ⟨PolyObj.init c, ?_, ?_, ?_, ?_⟩
    · rw [if_pos hd]
      show (p.coeff.reshape (List.replicate (dim - p.dim) 1 ++ p.coeff.shape)).map PolyObj.init
        = some (PolyObj.init c)
      rw [hc]
      rfl
    · show c.shape.length = dim
      rw [hcs]
      simp only [List.length_append, List.length_replicate]
      show dim - p.dim + p.coeff.shape.length = dim
      have : p.coeff.shape.length = p.dim := rfl
      omega
    · exact hcs
    · exact hcg
  · have hd' : p.dim = dim := by omega
    refine ⟨p, by rw [if_neg hd], hd', ?_, ?_⟩
    · rw [hd', Nat.sub_self]
      rfl
    · intro idx _
      rw [hd', Nat.sub_self]
      rfl

/-- The alignment loop succeeds on any list of polynomials whose
dimensions are bounded by the target, and aligns each one. -/
theorem align_loop_spec (dim : Nat) :
    ∀ polys : List PolyObj, (∀ p ∈ polys, p.dim ≤ dim) →
      ∃ res, align_loop dim polys = some res ∧ res.length = polys.length ∧
        ∀ k, k < polys.length →
          (res.getD k defaultPoly).dim = dim ∧
          (res.getD k defaultPoly).shape
            = List.replicate (dim - (polys.getD k defaultPoly).dim) 1
              ++ (polys.getD k defaultPoly).shape ∧
          ∀ idx, inBounds (polys.getD k defaultPoly).shape idx →
            (res.getD k defaultPoly).coeff.get
              (List.replicate (dim - (polys.getD k defaultPoly).dim) 0 ++ idx)
              = (polys.getD k defaultPoly).coeff.get idx := by
  intro polys
  induction polys with
  | nil =>
      intro _
      exact ⟨[], rfl, rfl, fun k hk => absurd hk (by simp)⟩
  | cons p rest ih =>
      intro hle
      obtain ⟨q, hq, hqd, hqs, hqg⟩ := align_elem dim p (hle p (by simp))
      obtain ⟨res, hres, hlen, hall⟩ := ih (fun r hr => hle r (by simp [hr]))
      refine ⟨q :: res, ?_, by simpa using hlen, ?_⟩
      · show (match (if p.dim ≠ dim then
            (p.coeff.reshape (List.replicate (dim - p.dim) 1 ++ p.shape)).map PolyObj.init
          else some p), align_loop dim rest with
          | some q, some qs => some (q :: qs)
          | _, _ => none) = some (q :: res)
        rw [hq, hres]
      · intro k hk
        cases k with
        | zero => exact ⟨hqd, hqs, hqg⟩
        | succ k =>
            have hk' : k < rest.length := by simpa using hk
            have := hall k hk'
            simpa [List.getD_cons_succ] using this

/-- C8: on a non-empty collection, `match_poly_dimensions` computes the
maximum `dim`, reshapes every lower-dimensional polynomial's coefficient
tensor by inserting leading singleton axes until its rank equals that
maximum (re-initialising the polynomial from the reshaped tensor, the
spec's in-place mutation), and returns the collection dimension-aligned:
same length, every element of maximal dimension, shapes padded with
leading 1s, and all original coefficient entries readable at the
zero-padded indices. -/
theorem C8_match_poly_dimensions (polys : List PolyObj) (hne : polys ≠ []) :
    ∃ res, match_poly_dimensions polys = some res ∧
      res.length = polys.length ∧
      ∀ k, k < polys.length →
        (res.getD k defaultPoly).dim = (polys.map PolyObj.dim).foldl max 0 ∧
        (res.getD k defaultPoly).shape
          = List.replicate ((polys.map PolyObj.dim).foldl max 0
              - (polys.getD k defaultPoly).dim) 1
            ++ (polys.getD k defaultPoly).shape ∧
        ∀ idx, inBounds (polys.getD k defaultPoly).shape idx →
          (res.getD k defaultPoly).coeff.get
            (List.replicate ((polys.map PolyObj.dim).foldl max 0
              - (polys.getD k defaultPoly).dim) 0 ++ idx)
            = (polys.getD k defaultPoly).coeff.get idx := by
  match polys, hne with
  | p :: rest, _ =>
      have hle : ∀ q ∈ p :: rest, q.dim ≤ ((p :: rest).map PolyObj.dim).foldl max 0 := by
        intro q hq
        exact (foldl_max_bound ((p :: rest).map PolyObj.dim) 0).1 q.dim
          (List.mem_map.mpr ⟨q, hq, rfl⟩)
      obtain ⟨res, hres, hlen, hall⟩ :=
        align_loop_spec (((p :: rest).map PolyObj.dim).foldl max 0) (p :: rest) hle
      exact ⟨res, hres, hlen, hall⟩

/-- Witness for C8 at a concrete two-element collection: a 1-d polynomial
aligned against a 2-d one. -/
theorem C8_match_poly_dimensions_witness :
    ∃ res, match_poly_dimensions
        [⟨⟨[2], fun _ => 3⟩⟩, ⟨⟨[2, 2], fun _ => 4⟩⟩] = some res ∧
      res.length = ([⟨⟨[2], fun _ => 3⟩⟩, ⟨⟨[2, 2], fun _ => 4⟩⟩] : List PolyObj).length ∧
      ∀ k, k < ([⟨⟨[2], fun _ => 3⟩⟩, ⟨⟨[2, 2], fun _ => 4⟩⟩] : List PolyObj).length →
        (res.getD k defaultPoly).dim
          = (([⟨⟨[2], fun _ => 3⟩⟩, ⟨⟨[2, 2], fun _ => 4⟩⟩] : List PolyObj).map
              PolyObj.dim).foldl max 0 ∧
        (res.getD k defaultPoly).shape
          = List.replicate ((([⟨⟨[2], fun _ => 3⟩⟩, ⟨⟨[2, 2], fun _ => 4⟩⟩]
                : List PolyObj).map PolyObj.dim).foldl max 0
              - (([⟨⟨[2], fun _ => 3⟩⟩, ⟨⟨[2, 2], fun _ => 4⟩⟩]
                : List PolyObj).getD k defaultPoly).dim) 1
            ++ (([⟨⟨[2], fun _ => 3⟩⟩, ⟨⟨[2, 2], fun _ => 4⟩⟩]
                : List PolyObj).getD k defaultPoly).shape ∧
        ∀ idx, inBounds (([⟨⟨[2], fun _ => 3⟩⟩, ⟨⟨[2, 2], fun _ => 4⟩⟩]
            : List PolyObj).getD k defaultPoly).shape idx →
          (res.getD k defaultPoly).coeff.get
            (List.replicate ((([⟨⟨[2], fun _ => 3⟩⟩, ⟨⟨[2, 2], fun _ => 4⟩⟩]
                : List PolyObj).map PolyObj.dim).foldl max 0
              - (([⟨⟨[2], fun _ => 3⟩⟩, ⟨⟨[2, 2], fun _ => 4⟩⟩]
                : List PolyObj).getD k defaultPoly).dim) 0 ++ idx)
            = (([⟨⟨[2], fun _ => 3⟩⟩, ⟨⟨[2, 2], fun _ => 4⟩⟩]
                : List PolyObj).getD k defaultPoly).coeff.get idx :=
  C8_match_poly_dimensions [⟨⟨[2], fun _ => 3⟩⟩, ⟨⟨[2, 2], fun _ => 4⟩⟩] (by simp)
